import Mathlib

/-
Verification of the ithos storage core against its specification.

The development shallowly embeds the code of `src/lmdb_adapter.rs`
(namespace tree, entry store, block log, transaction wrappers) and
`src/crypto/password.rs` (KDF front end and the Bubble Babble encoder).

The underlying LMDB storage engine is an external collaborator (spec §1,
§4.1, §6): it is modelled as three flat tables.  The `entries` and
`blocks` tables are unique-key tables; the `nodes` table is a
duplicate-key (DUP_SORT) table in which several pairs may share a key.
DUP_SORT keeps the duplicate run of one key sorted by the serialized
value; the wire codec fixing that order is itself out of scope (spec §1),
so the model keeps a run in insertion order — every property proved below
is independent of the order inside a run (sibling names are unique).

Types that live in repository files absent from `src/` (`Id`, `Node`,
`Path` from server.rs, `Error` from error.rs, `ObjectClass` from
objectclass.rs, `Block` from log.rs) are modelled from the spec; each such
definition carries a doc comment saying so.
-/

set_option autoImplicit false

namespace Ithos

/-- Modelled from the spec: the error kinds of error.rs (absent from src/),
enumerated in spec §7. -/
inductive Error where
  | DbCreate
  | DbOpen
  | DbWrite
  | DbCorrupt
  | NotFound
  | Transaction
  | EntryAlreadyExists
  | Serialize
deriving DecidableEq, Repr

/-- The Rust `Result<T>` type of this crate, with `Error` as the error kind. -/
inductive Res (α : Type) where
  | ok (val : α)
  | err (e : Error)
deriving DecidableEq, Repr

/-- Modelled from the spec: `Id` (server.rs, absent from src/) is a
fixed-width integer whose byte encoding sorts lexicographically in numeric
order, so it is modelled directly as `Nat`; the reserved well-known root
value is modelled as `0`, and `Id::next` is the numeric successor. -/
def rootId : Nat := 0

/-- The value stored in the `nodes` table under the parent id key:
the node's own id and its name (the parent id is recovered from the key,
as `Node::from_parent_id_and_bytes` does).  The wire codec (buffoon) is an
out-of-scope collaborator (spec §1), so the stored value is kept
structured rather than as bytes. -/
structure NodeVal where
  id : Nat
  name : String
deriving DecidableEq, Repr

/-- Modelled from the spec: a `Node` of server.rs (absent from src/):
one element of the hierarchical namespace (spec §3). -/
structure Node where
  id : Nat
  parentId : Nat
  name : String
deriving DecidableEq, Repr

/-- Modelled from the spec: `Node::root()`, the implicit root of the
namespace, carrying the reserved root id. -/
def Node.root : Node := ⟨rootId, rootId, ""⟩

/-- Modelled from the spec: the closed `ObjectClass` enumeration of
objectclass.rs (absent from src/); the spec (§8) names the variants
Domain, Ou and Host. -/
inductive ObjectClass where
  | Domain
  | Ou
  | Host
deriving DecidableEq, Repr

/-- Modelled from the spec: the objectclass tag bytes stored in the
`entries` table (spec §6); the code stores `objectclass.to_string()`
bytes, whose concrete strings live in objectclass.rs (absent from src/),
so an injective tag-byte encoding stands in for them. -/
def ObjectClass.toBytes : ObjectClass → List Nat
  | ObjectClass.Domain => [1]
  | ObjectClass.Ou => [2]
  | ObjectClass.Host => [3]

/-- Modelled from the spec: `ObjectClass::from_bytes` (absent from src/),
the partial inverse of the stored tag bytes; unknown bytes fail. -/
def ObjectClass.fromBytes (bytes : List Nat) : Option ObjectClass :=
  if bytes = [1] then some ObjectClass.Domain
  else if bytes = [2] then some ObjectClass.Ou
  else if bytes = [3] then some ObjectClass.Host
  else none

/-- An `Entry` binds a node to its objectclass (server.rs, absent from
src/; spec §3). -/
structure Entry where
  node : Node
  objectclass : ObjectClass
deriving DecidableEq, Repr

/-- The three tables of one store environment (spec §6).  `blocks` and
`entries` are unique-key tables; `nodes` is the DUP_SORT table keyed by
parent id, in which several pairs may share a key. -/
structure Store where
  blocks : List (Nat × List Nat)
  nodes : List (Nat × NodeVal)
  entries : List (Nat × List Nat)
deriving DecidableEq, Repr

/-- A freshly created environment: all three tables empty. -/
def emptyStore : Store := ⟨[], [], []⟩

/-- Exact-key lookup (`Transaction::get` over the modelled store): the
first value stored under the key, `NotFound` if the key is absent
(spec §4.1). -/
def tableGet {α : Type} (l : List (Nat × α)) (k : Nat) : Res α :=
  match l.find? (fun q => q.1 == k) with
  | some q => Res.ok q.2
  | none => Res.err Error.NotFound

/-- Cursor scan (`Transaction::find` over the modelled store): positions
at the duplicate run of `k` and returns the first value in the run
satisfying the predicate; `NotFound` if the run is empty or holds no
match (spec §4.1). -/
def tableFind {α : Type} (l : List (Nat × α)) (k : Nat) (pred : α → Bool) : Res α :=
  match (l.filter (fun q => q.1 == k)).find? (fun q => pred q.2) with
  | some q => Res.ok q.2
  | none => Res.err Error.NotFound

/-- `put` on a unique-key table: overwrite the value of an existing key,
append a fresh key at the end. -/
def tablePut {α : Type} (l : List (Nat × α)) (k : Nat) (v : α) : List (Nat × α) :=
  match l with
  | [] => [(k, v)]
  | q :: rest => if q.1 == k then (k, v) :: rest else q :: tablePut rest k v

/-- `put` on the DUP_SORT `nodes` table: the pair joins the duplicate run
of its key.  The position inside the run (sorted by the out-of-scope wire
encoding) is model-unspecified; insertion order stands in for it. -/
def dupPut {α : Type} (l : List (Nat × α)) (k : Nat) (v : α) : List (Nat × α) :=
  l ++ [(k, v)]

/-- `LmdbAdapter::find_child_node` (src/lmdb_adapter.rs lines 72-86):
scan the duplicate run of `parentId` for the first stored node whose name
matches, and rebuild the `Node` from the key and the stored value. -/
def findChildNode (st : Store) (parentId : Nat) (name : String) : Res Node :=
  match tableFind st.nodes parentId (fun nv => nv.name == name) with
  | Res.ok nv => Res.ok ⟨nv.id, parentId, nv.name⟩
  | Res.err e => Res.err e

/-- The numeric value of the last-ordered key of the `nodes` table, or the
root id when the table is empty.  The table is INTEGER_KEY and the id byte
encoding sorts numerically, so the cursor's MDB_LAST key is the numeric
maximum of the keys present. -/
def lastNodeKey (l : List (Nat × NodeVal)) : Nat :=
  l.foldl (fun acc q => max acc q.1) rootId

/-- `LmdbAdapter::next_available_id` (src/lmdb_adapter.rs lines 103-114):
the successor of the last-ordered key of the `nodes` index, or of the root
id when the index is empty.  (The cursor-open failure path, Error
Transaction, is a store-layer fault outside the pure model.) -/
def nextAvailableId (st : Store) : Nat :=
  lastNodeKey st.nodes + 1

/-- `LmdbAdapter::add_entry` (src/lmdb_adapter.rs lines 132-166).  The
returned pair is (the Rust return value, the transaction state after the
call); both error returns happen before any write, so they carry the
input state unchanged. -/
def addEntry (st : Store) (id parentId : Nat) (name : String) (oc : ObjectClass) :
    Res Entry × Store :=
  if tableGet st.entries id ≠ Res.err Error.NotFound then
    (Res.err Error.EntryAlreadyExists, st)
  else if tableGet st.nodes parentId ≠ Res.err Error.NotFound ∧
      findChildNode st parentId name ≠ Res.err Error.NotFound then
    (Res.err Error.EntryAlreadyExists, st)
  else
    (Res.ok ⟨⟨id, parentId, name⟩, oc⟩,
      { st with
          nodes := dupPut st.nodes parentId ⟨id, name⟩,
          entries := tablePut st.entries id (ObjectClass.toBytes oc) })

/-- The fold step of `find_node`: thread the previous component's node
(or the first error) into a child lookup, as the closure at
src/lmdb_adapter.rs lines 172-174 does with `try!`. -/
def walkStep (st : Store) (acc : Res Node) (component : String) : Res Node :=
  match acc with
  | Res.ok node => findChildNode st node.id component
  | Res.err e => Res.err e

/-- `LmdbAdapter::find_node` (src/lmdb_adapter.rs lines 168-175): fold
over the path components starting from the root node.  A `Path`
(server.rs, absent from src/) is modelled by its list of components. -/
def findNode (st : Store) (comps : List String) : Res Node :=
  comps.foldl (walkStep st) (Res.ok Node.root)

/-- `LmdbAdapter::find_entry` (src/lmdb_adapter.rs lines 177-192):
resolve the node, then look its objectclass up by id; a failing lookup or
an undecodable row is mapped to `DbCorrupt`. -/
def findEntry (st : Store) (comps : List String) : Res Entry :=
  match findNode st comps with
  | Res.err e => Res.err e
  | Res.ok node =>
    match tableGet st.entries node.id with
    | Res.err _ => Res.err Error.DbCorrupt
    | Res.ok bytes =>
      match ObjectClass.fromBytes bytes with
      | none => Res.err Error.DbCorrupt
      | some oc => Res.ok ⟨node, oc⟩

/-- Modelled from the spec: a `Block` of log.rs (absent from src/): an
append-only audit-log record carrying an optional assigned id and an
opaque payload (spec §3). -/
structure Block where
  id : Option Nat
  payload : List Nat
deriving DecidableEq, Repr

/-- Modelled from the spec: the deterministic buffoon serialization of a
Block (the codec is an out-of-scope collaborator, spec §1); any fixed
deterministic encoding serves the model. -/
def serializeBlock (b : Block) : List Nat :=
  match b.id with
  | none => 0 :: b.payload
  | some i => 1 :: i :: b.payload

/-- `LmdbAdapter::add_block` (src/lmdb_adapter.rs lines 116-130).
`none` models the fatal `expect("block ID unset")` precondition violation
on a block without an id.  Otherwise the pair is (Rust return value,
transaction state after the call); the duplicate-id error return happens
before the write, so it carries the input state unchanged. -/
def addBlock (st : Store) (b : Block) : Option (Res Unit × Store) :=
  match b.id with
  | none => none
  | some blockId =>
    let serialized := serializeBlock b
    if tableGet st.blocks blockId ≠ Res.err Error.NotFound then
      some (Res.err Error.EntryAlreadyExists, st)
    else
      some (Res.ok (), { st with blocks := tablePut st.blocks blockId serialized })

/-- Modelled from the spec: the error type of the external lmdb crate, as
seen through `map_err(|_| ...)` — only its being an error matters. -/
inductive LmdbError where
  | keyNotFound
  | pageNotFound
  | corrupted
  | mapFull
  | other
deriving DecidableEq, Repr

/-- `Transaction::get` as instantiated by `impl_transaction!(RwTransaction)`
(src/lmdb_adapter.rs lines 198-200, 231): the raw result of the
underlying store get, with every error collapsed to `NotFound`. -/
def rwTransactionGet (raw : Except LmdbError (List Nat)) : Res (List Nat) :=
  match raw with
  | Except.ok bytes => Res.ok bytes
  | Except.error _ => Res.err Error.NotFound

/-- `Transaction::get` as instantiated by `impl_transaction!(RoTransaction)`
(src/lmdb_adapter.rs lines 198-200, 232): identical expansion of the same
macro body. -/
def roTransactionGet (raw : Except LmdbError (List Nat)) : Res (List Nat) :=
  match raw with
  | Except.ok bytes => Res.ok bytes
  | Except.error _ => Res.err Error.NotFound

/-- Modelled from the spec: the `PasswordAlg` tag of alg.rs (absent from
src/): an enumeration with currently one variant (spec §3). -/
inductive PasswordAlg where
  | SCRYPT
deriving DecidableEq, Repr

/-- `ring::constant_time::verify_slices_are_equal(..).is_ok()`: true
exactly when the two byte slices are equal (a length mismatch and a
content mismatch both yield false).  The constant-time execution profile
is a timing property outside the functional model. -/
def constantTimeIsEqual (a b : List Nat) : Bool :=
  a == b

/-- `password::derive` (src/crypto/password.rs lines 61-66).  The scrypt
KDF itself lives in the external pwhash crate, so the function is
parameterized by it: `scryptFn password salt outLen` stands for filling an
`outLen`-byte buffer by `scrypt::scrypt`.  Passwords and salts are their
byte sequences.  The `assert_eq!(alg, SCRYPT)` is the match on the single
variant. -/
def derive (scryptFn : List Nat → List Nat → Nat → List Nat) (alg : PasswordAlg)
    (salt password : List Nat) (outLen : Nat) : List Nat :=
  match alg with
  | PasswordAlg.SCRYPT => scryptFn password salt outLen

/-- `password::verify` (src/crypto/password.rs lines 70-78): re-derive a
buffer of the same length as the previously derived key and compare in
constant time. -/
def verify (scryptFn : List Nat → List Nat → Nat → List Nat) (alg : PasswordAlg)
    (salt password previouslyDerived : List Nat) : Bool :=
  match alg with
  | PasswordAlg.SCRYPT =>
    constantTimeIsEqual previouslyDerived (scryptFn password salt previouslyDerived.length)

/-- The vowel alphabet `b"aeiouy"` of `encode_bubblebabble`. -/
def bbVowels : List Nat := [97, 101, 105, 111, 117, 121]

/-- The consonant alphabet `b"bcdfghklmnprstvzx"` of `encode_bubblebabble`. -/
def bbConsonants : List Nat :=
  [98, 99, 100, 102, 103, 104, 107, 108, 109, 110, 112, 114, 115, 116, 118, 122, 120]

/-- The loop of `encode_bubblebabble` (src/crypto/password.rs lines
91-118), consuming the input two bytes at a time with the running
checksum `c`: an exhausted input emits the final checksum triple, a
single trailing byte emits its triple and stops, and a full pair emits
the triple, the consonant-dash-consonant separator, and recurses with the
updated checksum. -/
def bbEncodeRest : List Nat → Nat → List Nat
  | [], c =>
    [bbVowels.getD (c % 6) 0, bbConsonants.getD 16 0, bbVowels.getD (c / 6) 0]
  | [b1], c =>
    [bbVowels.getD ((((b1 >>> 6) &&& 3) + c) % 6) 0,
     bbConsonants.getD ((b1 >>> 2) &&& 15) 0,
     bbVowels.getD (((b1 &&& 3) + c / 6) % 6) 0]
  | b1 :: b2 :: rest, c =>
    [bbVowels.getD ((((b1 >>> 6) &&& 3) + c) % 6) 0,
     bbConsonants.getD ((b1 >>> 2) &&& 15) 0,
     bbVowels.getD (((b1 &&& 3) + c / 6) % 6) 0,
     bbConsonants.getD ((b2 >>> 4) &&& 15) 0,
     45,
     bbConsonants.getD (b2 &&& 15) 0] ++ bbEncodeRest rest ((c * 5 + b1 * 7 + b2) % 36)

/-- `password::encode_bubblebabble` (src/crypto/password.rs lines
81-122): the encoded run bracketed by the literal marker byte `x` (120),
with the checksum seeded at 1. -/
def encode_bubblebabble (bytes : List Nat) : List Nat :=
  (120 :: bbEncodeRest bytes 1) ++ [120]

/-- The ASCII byte sequence of a string, for stating the encoding
vectors. -/
def asciiBytes (s : String) : List Nat :=
  s.toList.map Char.toNat

/-- The store states reachable from a fresh environment by any sequence
of `add_entry` calls (failed calls leave the state unchanged, which the
pair-valued `addEntry` already records). -/
inductive Reachable : Store → Prop
  | empty : Reachable emptyStore
  | step (st : Store) (id parentId : Nat) (name : String) (oc : ObjectClass) :
      Reachable st → Reachable (addEntry st id parentId name oc).2

/-- The store states reachable by `add_entry` sequences in which every
call's parent id is the root id or the id of a node already present. -/
inductive ReachableGood : Store → Prop
  | empty : ReachableGood emptyStore
  | step (st : Store) (id parentId : Nat) (name : String) (oc : ObjectClass) :
      ReachableGood st →
      (parentId = rootId ∨ ∃ k v, (k, v) ∈ st.nodes ∧ v.id = parentId) →
      ReachableGood (addEntry st id parentId name oc).2

/-- The store states reachable by `add_entry` sequences whose every id
argument is the value `next_available_id` returns on the state of the
call, together with the list of successfully assigned ids in call
order. -/
inductive AllocReachable : Store → List Nat → Prop
  | empty : AllocReachable emptyStore []
  | stepOk (st : Store) (parentId : Nat) (name : String) (oc : ObjectClass)
      (ids : List Nat) (e : Entry) :
      AllocReachable st ids →
      (addEntry st (nextAvailableId st) parentId name oc).1 = Res.ok e →
      AllocReachable (addEntry st (nextAvailableId st) parentId name oc).2
        (ids ++ [nextAvailableId st])
  | stepErr (st : Store) (parentId : Nat) (name : String) (oc : ObjectClass)
      (ids : List Nat) (er : Error) :
      AllocReachable st ids →
      (addEntry st (nextAvailableId st) parentId name oc).1 = Res.err er →
      AllocReachable (addEntry st (nextAvailableId st) parentId name oc).2 ids

/-- A chain of created path components held in the store: under the given
parent id, a node with the component's allocated id and name is present,
and the rest of the chain hangs under that id. -/
def chainIn (st : Store) : Nat → List String → List Nat → Bool
  | _, [], [] => true
  | parent, c :: cs, i :: is =>
    decide ((parent, NodeVal.mk i c) ∈ st.nodes) && chainIn st i cs is
  | _, _, _ => false

/-- Sibling-name uniqueness of a store: two nodes stored under the same
parent key with the same name coincide. -/
def NamesUnique (st : Store) : Prop :=
  ∀ k v₁ v₂, (k, v₁) ∈ st.nodes → (k, v₂) ∈ st.nodes → v₁.name = v₂.name → v₁ = v₂

/-- Namespace-entry coupling of a store: every stored node's id owns a
decodable row of the entries table. -/
def EntriesCoupled (st : Store) : Prop :=
  ∀ k v, (k, v) ∈ st.nodes → ∃ oc : ObjectClass,
    tableGet st.entries v.id = Res.ok (ObjectClass.toBytes oc)

/-- Parent existence over a store: the parent key of every stored node is
the root id or the id of some stored node (spec §3's non-root parent
invariant). -/
def ParentsExist (st : Store) : Prop :=
  ∀ k v, (k, v) ∈ st.nodes → k = rootId ∨ ∃ k' v', (k', v') ∈ st.nodes ∧ v'.id = k

/-- A two-level store built by `add_entry`: "a" under the root, "b" under
"a"; used to instantiate the round-trip theorem. -/
def twoLevelStore : Store :=
  (addEntry (addEntry emptyStore 1 rootId "a" ObjectClass.Domain).2
    2 1 "b" ObjectClass.Ou).2

/-- A store whose namespace has a node for "a" but whose entries table is
empty: the cross-table invariant is broken; used to instantiate the
corruption theorem. -/
def divergedStore : Store :=
  ⟨[], [(rootId, ⟨1, "a"⟩)], []⟩

/-- A store holding one entry with id 7 and nothing else; used to
instantiate the duplicate-id theorem. -/
def idTakenStore : Store :=
  ⟨[], [], [(7, ObjectClass.toBytes ObjectClass.Domain)]⟩

/-- A store holding one child named "a" under the root; used to
instantiate the sibling-name theorem. -/
def childTakenStore : Store :=
  ⟨[], [(rootId, ⟨1, "a"⟩)], [(1, ObjectClass.toBytes ObjectClass.Domain)]⟩

/-- A store holding one block under id 4; used to instantiate the
append-only theorem. -/
def blockTakenStore : Store :=
  ⟨[(4, serializeBlock ⟨some 4, [9, 9]⟩)], [], []⟩

/-- The single-step store of the id-allocation counterexample: the first
allocated id (1) assigned to a child of the root. -/
def allocStuckStore : Store :=
  (addEntry emptyStore (nextAvailableId emptyStore) rootId "a" ObjectClass.Domain).2

/-- The store produced by a single `add_entry` call whose parent id (5)
denotes no existing node and is not the root. -/
def danglingStore : Store :=
  (addEntry emptyStore 1 5 "a" ObjectClass.Domain).2

/-- Decoding inverts the objectclass tag encoding. -/
theorem fromBytes_toBytes (oc : ObjectClass) :
    ObjectClass.fromBytes (ObjectClass.toBytes oc) = some oc := by
  cases oc <;> rfl

/-- Exact-key lookup misses exactly when no pair carries the key. -/
theorem tableGet_err_iff {α : Type} (l : List (Nat × α)) (k : Nat) :
    tableGet l k = Res.err Error.NotFound ↔ ∀ q ∈ l, q.1 ≠ k := by
  unfold tableGet
  cases h : l.find? (fun q => q.1 == k) with
  | none =>
    rw [List.find?_eq_none] at h
    simp only [beq_iff_eq] at h
    exact iff_of_true rfl h
  | some q =>
    have hq := List.find?_some h
    have hmem := List.mem_of_find?_eq_some h
    rw [beq_iff_eq] at hq
    exact iff_of_false (by simp) (fun hall => hall q hmem hq)

/-- A pair present in the table makes the exact-key lookup succeed. -/
theorem tableGet_ne_err_of_mem {α : Type} {l : List (Nat × α)} {k : Nat} {v : α}
    (h : (k, v) ∈ l) : tableGet l k ≠ Res.err Error.NotFound :=
  fun he => ((tableGet_err_iff l k).1 he (k, v) h) rfl

/-- The cursor scan misses exactly when no value in the key's run
satisfies the predicate. -/
theorem tableFind_err_iff {α : Type} (l : List (Nat × α)) (k : Nat) (pred : α → Bool) :
    tableFind l k pred = Res.err Error.NotFound ↔
      ∀ q ∈ l, q.1 = k → pred q.2 = false := by
  unfold tableFind
  cases h : (l.filter (fun q => q.1 == k)).find? (fun q => pred q.2) with
  | none =>
    rw [List.find?_eq_none] at h
    refine iff_of_true rfl ?_
    intro q hq hk
    have hin : q ∈ l.filter (fun q => q.1 == k) := List.mem_filter.2 ⟨hq, by simp [hk]⟩
    simpa using h q hin
  | some q =>
    have hq := List.find?_some h
    have hmem := List.mem_filter.1 (List.mem_of_find?_eq_some h)
    refine iff_of_false (by simp) ?_
    intro hall
    have hk : q.1 = k := by simpa using hmem.2
    have := hall q hmem.1 hk
    rw [this] at hq
    simp at hq

/-- Child lookup misses exactly when no node in the parent's run has the
name. -/
theorem findChildNode_err_iff (st : Store) (p : Nat) (name : String) :
    findChildNode st p name = Res.err Error.NotFound ↔
      ∀ q ∈ st.nodes, q.1 = p → q.2.name ≠ name := by
  unfold findChildNode
  cases h : tableFind st.nodes p (fun nv => nv.name == name) with
  | ok nv =>
    refine iff_of_false (by simp) (fun hall => ?_)
    have hfe : tableFind st.nodes p (fun nv => nv.name == name) = Res.err Error.NotFound :=
      (tableFind_err_iff _ _ _).2 (fun q hq hk => by simp [hall q hq hk])
    rw [h] at hfe
    cases hfe
  | err e =>
    have he := tableFind_err_iff st.nodes p (fun nv => nv.name == name)
    rw [h] at he
    simp only [beq_eq_false_iff_ne] at he
    show (Res.err e : Res Node) = Res.err Error.NotFound ↔ _
    constructor
    · intro hg
      have hge : e = Error.NotFound := by simpa using hg
      exact he.1 (by rw [hge])
    · intro hall
      have hge : e = Error.NotFound := by simpa using he.2 hall
      rw [hge]

/-- A stored child with the name makes the child lookup succeed. -/
theorem findChildNode_ne_err_of_mem {st : Store} {p : Nat} {cv : NodeVal} {name : String}
    (hm : (p, cv) ∈ st.nodes) (hn : cv.name = name) :
    findChildNode st p name ≠ Res.err Error.NotFound :=
  fun he => ((findChildNode_err_iff st p name).1 he (p, cv) hm rfl) hn

/-- Under sibling-name uniqueness, child lookup returns exactly the
stored child with that name. -/
theorem findChildNode_eq (st : Store) (p i : Nat) (c : String)
    (hU : NamesUnique st) (hm : (p, NodeVal.mk i c) ∈ st.nodes) :
    findChildNode st p c = Res.ok ⟨i, p, c⟩ := by
  unfold findChildNode tableFind
  cases h : (st.nodes.filter (fun q => q.1 == p)).find? (fun q => q.2.name == c) with
  | none =>
    rw [List.find?_eq_none] at h
    exact absurd (h (p, ⟨i, c⟩) (List.mem_filter.2 ⟨hm, by simp⟩)) (by simp)
  | some q =>
    obtain ⟨qk, qv⟩ := q
    have hpred := List.find?_some h
    have hmem := List.mem_filter.1 (List.mem_of_find?_eq_some h)
    have hk : qk = p := by simpa using hmem.2
    have hname : qv.name = c := by simpa using hpred
    subst hk
    have hv : qv = NodeVal.mk i c := hU qk qv ⟨i, c⟩ hmem.1 hm (by simpa using hname)
    rw [hv]

/-- Overwriting put followed by lookup of the same key yields the new
value. -/
theorem tableGet_tablePut_self {α : Type} (l : List (Nat × α)) (k : Nat) (v : α) :
    tableGet (tablePut l k v) k = Res.ok v := by
  induction l with
  | nil => simp [tablePut, tableGet, List.find?]
  | cons q rest ih =>
    by_cases h : q.1 = k
    · simp [tablePut, tableGet, List.find?, h]
    · have hb : (q.1 == k) = false := by simp [h]
      simp only [tablePut, hb, Bool.false_eq_true, if_false]
      simpa [tableGet, List.find?, hb] using ih

/-- Overwriting put leaves lookups of other keys unchanged. -/
theorem tableGet_tablePut_ne {α : Type} (l : List (Nat × α)) (k k' : Nat) (v : α)
    (h : k' ≠ k) : tableGet (tablePut l k v) k' = tableGet l k' := by
  induction l with
  | nil => simp [tablePut, tableGet, List.find?, (by simpa using Ne.symm h : (k == k') = false)]
  | cons q rest ih =>
    by_cases hq : q.1 = k
    · have hk' : (k == k') = false := by simpa using Ne.symm h
      simp [tablePut, tableGet, List.find?, hq, hk']
    · have hb : (q.1 == k) = false := by simp [hq]
      simp only [tablePut, hb, Bool.false_eq_true, if_false]
      by_cases hq' : q.1 = k'
      · simp [tableGet, List.find?, hq']
      · have hb' : (q.1 == k') = false := by simp [hq']
        simpa [tableGet, List.find?, hb'] using ih

/-- An `add_entry` call that returns an error leaves the transaction
state exactly as it was. -/
theorem addEntry_snd_of_err (st : Store) (id pid : Nat) (name : String)
    (oc : ObjectClass) (e : Error)
    (h : (addEntry st id pid name oc).1 = Res.err e) :
    (addEntry st id pid name oc).2 = st := by
  unfold addEntry at h ⊢
  split_ifs at h ⊢
  · rfl
  · rfl

/-- A successful `add_entry` call passed both uniqueness checks and
appended exactly its node and its entry row. -/
theorem addEntry_ok_spec (st : Store) (id pid : Nat) (name : String)
    (oc : ObjectClass) (e : Entry)
    (h : (addEntry st id pid name oc).1 = Res.ok e) :
    tableGet st.entries id = Res.err Error.NotFound ∧
    (tableGet st.nodes pid = Res.err Error.NotFound ∨
      findChildNode st pid name = Res.err Error.NotFound) ∧
    e = ⟨⟨id, pid, name⟩, oc⟩ ∧
    (addEntry st id pid name oc).2 =
      { st with
          nodes := dupPut st.nodes pid ⟨id, name⟩,
          entries := tablePut st.entries id (ObjectClass.toBytes oc) } := by
  unfold addEntry at h ⊢
  by_cases h1 : tableGet st.entries id ≠ Res.err Error.NotFound
  · rw [if_pos h1] at h
    simp at h
  · rw [if_neg h1] at h ⊢
    by_cases h2 : tableGet st.nodes pid ≠ Res.err Error.NotFound ∧
        findChildNode st pid name ≠ Res.err Error.NotFound
    · rw [if_pos h2] at h
      simp at h
    · rw [if_neg h2] at h ⊢
      have he : e = ⟨⟨id, pid, name⟩, oc⟩ := by simpa using h.symm
      refine ⟨not_not.1 h1, ?_, he, rfl⟩
      rcases not_and_or.1 h2 with hA | hB
      · exact Or.inl (not_not.1 hA)
      · exact Or.inr (not_not.1 hB)

/-- C2: in every store state in which an id already has an Entry, calling
`add_entry` again with that id — under any parent id, name and
objectclass — returns `EntryAlreadyExists`, and the failed call leaves the
tables exactly as they were (the returned transaction state is the input
state). -/
theorem c2_duplicate_id_atomic_failure (st : Store) (id : Nat) (b : List Nat)
    (pid : Nat) (name : String) (oc : ObjectClass)
    (h : tableGet st.entries id = Res.ok b) :
    addEntry st id pid name oc = (Res.err Error.EntryAlreadyExists, st) := by
  unfold addEntry
  rw [if_pos (by rw [h]; simp)]

/-- C2 witness: the theorem applied to a one-entry store where id 7 is
taken. -/
theorem c2_duplicate_id_instance :
    addEntry idTakenStore 7 0 "x" ObjectClass.Domain =
      (Res.err Error.EntryAlreadyExists, idTakenStore) :=
  c2_duplicate_id_atomic_failure idTakenStore 7
    (ObjectClass.toBytes ObjectClass.Domain) 0 "x" ObjectClass.Domain (by decide)

/-- C3: in every store state in which a child named `name` exists under
`parentId`, calling `add_entry` with any different id but the same parent
id and the same name returns `EntryAlreadyExists`. -/
theorem c3_sibling_name_uniqueness (st : Store) (pid : Nat) (cv : NodeVal)
    (id : Nat) (name : String) (oc : ObjectClass)
    (hm : (pid, cv) ∈ st.nodes) (hn : cv.name = name) (hid : id ≠ cv.id) :
    (addEntry st id pid name oc).1 = Res.err Error.EntryAlreadyExists := by
  unfold addEntry
  by_cases h1 : tableGet st.entries id ≠ Res.err Error.NotFound
  · rw [if_pos h1]
  · rw [if_neg h1,
      if_pos ⟨tableGet_ne_err_of_mem hm, findChildNode_ne_err_of_mem hm hn⟩]

/-- C3 witness: the theorem applied to a store with a child "a" (id 1)
under the root, adding id 2 with the same name. -/
theorem c3_sibling_name_instance :
    (addEntry childTakenStore 2 rootId "a" ObjectClass.Domain).1 =
      Res.err Error.EntryAlreadyExists :=
  c3_sibling_name_uniqueness childTakenStore rootId ⟨1, "a"⟩ 2 "a"
    ObjectClass.Domain (by decide) rfl (by decide)

/-- C4: in every store state already holding a block under an id, calling
`add_block` with another block carrying that same id returns
`EntryAlreadyExists`, and afterwards the bytes stored under that id are
the original ones (the returned transaction state is the input state). -/
theorem c4_append_only_block_log (st : Store) (b : Block) (bid : Nat)
    (orig : List Nat) (hid : b.id = some bid)
    (horig : tableGet st.blocks bid = Res.ok orig) :
    ∃ stOut, addBlock st b = some (Res.err Error.EntryAlreadyExists, stOut) ∧
      tableGet stOut.blocks bid = Res.ok orig := by
  refine ⟨st, ?_, horig⟩
  unfold addBlock
  rw [hid]
  simp only []
  rw [if_pos (by rw [horig]; simp)]

/-- C4 witness: the theorem applied to a store whose block 4 is taken,
appending a different block with id 4. -/
theorem c4_append_only_instance :
    ∃ stOut, addBlock blockTakenStore ⟨some 4, [1]⟩ =
        some (Res.err Error.EntryAlreadyExists, stOut) ∧
      tableGet stOut.blocks 4 = Res.ok (serializeBlock ⟨some 4, [9, 9]⟩) :=
  c4_append_only_block_log blockTakenStore ⟨some 4, [1]⟩ 4
    (serializeBlock ⟨some 4, [9, 9]⟩) rfl (by decide)

/-- C7: for the SCRYPT algorithm, any underlying KDF that fills the
requested output length, any salt, password and output length: `derive`
returns the same bytes on every call with those inputs, and `verify`
accepts the buffer that `derive` produced. -/
theorem c7_derive_deterministic_verify_roundtrip
    (scryptFn : List Nat → List Nat → Nat → List Nat)
    (hlen : ∀ pw salt n, (scryptFn pw salt n).length = n)
    (salt pw : List Nat) (n : Nat) :
    derive scryptFn PasswordAlg.SCRYPT salt pw n =
        derive scryptFn PasswordAlg.SCRYPT salt pw n ∧
      verify scryptFn PasswordAlg.SCRYPT salt pw
        (derive scryptFn PasswordAlg.SCRYPT salt pw n) = true := by
  refine ⟨rfl, ?_⟩
  simp [verify, derive, constantTimeIsEqual, hlen]

/-- C7 witness: the theorem applied to a concrete length-respecting KDF
stand-in, salt, password and output length. -/
theorem c7_kdf_instance :
    verify (fun _ _ n => List.replicate n 0) PasswordAlg.SCRYPT [3, 1] [7]
      (derive (fun _ _ n => List.replicate n 0) PasswordAlg.SCRYPT [3, 1] [7] 5) = true :=
  (c7_derive_deterministic_verify_roundtrip (fun _ _ n => List.replicate n 0)
    (fun _ _ _ => by simp) [3, 1] [7] 5).2

/-- C8: the three Bubble Babble vectors: the empty input encodes to
"xexax", the bytes of "abcd" encode to "ximek-domek-gyxox", and the bytes
of "Pineapple" encode to "xigak-nyryk-humil-bosek-sonax". -/
theorem c8_bubblebabble_vectors :
    encode_bubblebabble [] = asciiBytes "xexax" ∧
      encode_bubblebabble [0x61, 0x62, 0x63, 0x64] = asciiBytes "ximek-domek-gyxox" ∧
      encode_bubblebabble [0x50, 0x69, 0x6e, 0x65, 0x61, 0x70, 0x70, 0x6c, 0x65] =
        asciiBytes "xigak-nyryk-humil-bosek-sonax" := by
  refine ⟨by decide, by decide, by decide⟩

/-- C9: whenever path resolution succeeds but the entries table holds no
decodable objectclass row for the resolved node's id, `find_entry`
returns `DbCorrupt` (never `NotFound`); and `find_entry` returns
`NotFound` only when path resolution itself fails with `NotFound`. -/
theorem c9_corruption_distinct_from_miss (st : Store) (comps : List String)
    (node : Node) :
    (findNode st comps = Res.ok node →
      (∀ bytes, tableGet st.entries node.id = Res.ok bytes →
        ObjectClass.fromBytes bytes = none) →
      findEntry st comps = Res.err Error.DbCorrupt) ∧
    (findEntry st comps = Res.err Error.NotFound →
      findNode st comps = Res.err Error.NotFound) := by
  constructor
  · intro hnode hbad
    unfold findEntry
    rw [hnode]
    cases hget : tableGet st.entries node.id with
    | err e => simp [hget]
    | ok bytes => simp [hget, hbad bytes hget]
  · intro hnf
    unfold findEntry at hnf
    cases hfn : findNode st comps with
    | err e =>
      rw [hfn] at hnf
      simp only [Res.err.injEq] at hnf
      rw [hnf]
    | ok n =>
      rw [hfn] at hnf
      cases hget : tableGet st.entries n.id with
      | err e' => simp [hget] at hnf
      | ok bytes =>
        cases hoc : ObjectClass.fromBytes bytes with
        | none => simp [hget, hoc] at hnf
        | some oc => simp [hget, hoc] at hnf

/-- C9 witness: the theorem applied to a store whose namespace has node
"a" (id 1) but whose entries table is empty. -/
theorem c9_corruption_instance :
    findEntry divergedStore ["a"] = Res.err Error.DbCorrupt :=
  (c9_corruption_distinct_from_miss divergedStore ["a"] ⟨1, rootId, "a"⟩).1
    (by decide) (fun bytes h => by simp [divergedStore, tableGet, List.find?] at h)

/-- C10: `Transaction::get`, on both the read-write and the read-only
handle, either passes the stored bytes through or returns `NotFound`:
every underlying store failure is collapsed to `NotFound`, so no
`Transaction`, `DbWrite` or other store-layer error kind can escape this
interface. -/
theorem c10_get_collapses_store_errors (raw : Except LmdbError (List Nat)) :
    (∃ b, raw = Except.ok b ∧ rwTransactionGet raw = Res.ok b ∧
        roTransactionGet raw = Res.ok b) ∨
      (rwTransactionGet raw = Res.err Error.NotFound ∧
        roTransactionGet raw = Res.err Error.NotFound) := by
  cases raw with
  | ok b => exact Or.inl ⟨b, rfl, rfl, rfl⟩
  | error e => exact Or.inr ⟨rfl, rfl⟩

/-- Every store reachable by `add_entry` calls keeps sibling names unique
under each parent key and couples every stored node's id to a decodable
entries row. -/
theorem reachable_inv (st : Store) (h : Reachable st) :
    NamesUnique st ∧ EntriesCoupled st := by
  induction h with
  | empty =>
    constructor
    · intro k v₁ v₂ h1 h2 hn
      simp [emptyStore] at h1
    · intro k v h1
      simp [emptyStore] at h1
  | step st id pid name oc hr ih =>
    cases hres : (addEntry st id pid name oc).1 with
    | err e =>
      rw [addEntry_snd_of_err st id pid name oc e hres]
      exact ih
    | ok e =>
      obtain ⟨hid, hpar, hent, hst⟩ := addEntry_ok_spec st id pid name oc e hres
      rw [hst]
      constructor
      · intro k v₁ v₂ h1 h2 hn
        simp only [dupPut, List.mem_append, List.mem_singleton, Prod.mk.injEq] at h1 h2
        rcases h1 with h1 | ⟨hk1, hv1⟩ <;> rcases h2 with h2 | ⟨hk2, hv2⟩
        · exact ih.1 k v₁ v₂ h1 h2 hn
        · rw [hk2] at h1
          rcases hpar with hA | hB
          · exact absurd rfl ((tableGet_err_iff st.nodes pid).1 hA (pid, v₁) h1)
          · exact absurd (by simpa [hv2] using hn)
              ((findChildNode_err_iff st pid name).1 hB (pid, v₁) h1 rfl)
        · rw [hk1] at h2
          rcases hpar with hA | hB
          · exact absurd rfl ((tableGet_err_iff st.nodes pid).1 hA (pid, v₂) h2)
          · exact absurd (by simpa [hv1] using hn.symm)
              ((findChildNode_err_iff st pid name).1 hB (pid, v₂) h2 rfl)
        · rw [hv1, hv2]
      · intro k v hv
        simp only [dupPut, List.mem_append, List.mem_singleton, Prod.mk.injEq] at hv
        show ∃ oc' : ObjectClass,
          tableGet (tablePut st.entries id (ObjectClass.toBytes oc)) v.id =
            Res.ok (ObjectClass.toBytes oc')
        rcases hv with hv | ⟨hk, hv⟩
        · obtain ⟨oc₀, hoc₀⟩ := ih.2 k v hv
          by_cases hvid : v.id = id
          · exact ⟨oc, by rw [hvid]; exact tableGet_tablePut_self _ _ _⟩
          · exact ⟨oc₀, by rw [tableGet_tablePut_ne _ _ _ _ hvid]; exact hoc₀⟩
        · subst hv
          exact ⟨oc, tableGet_tablePut_self _ _ _⟩

/-- Along a created chain the `find_node` fold lands on the chain's last
node, whose stored pair is in the nodes table. -/
theorem walk_chain (st : Store) (hU : NamesUnique st) :
    ∀ (comps : List String) (ids : List Nat) (node : Node) (cL : String) (iL : Nat),
      chainIn st node.id comps ids = true →
      comps.getLast? = some cL → ids.getLast? = some iL →
      ∃ p', comps.foldl (walkStep st) (Res.ok node) = Res.ok ⟨iL, p', cL⟩ ∧
        (p', NodeVal.mk iL cL) ∈ st.nodes := by
  intro comps
  induction comps with
  | nil =>
    intro ids node cL iL hchain hlastC hlastI
    simp at hlastC
  | cons c cs ih =>
    intro ids node cL iL hchain hlastC hlastI
    cases ids with
    | nil => simp [chainIn] at hchain
    | cons i is =>
      simp only [chainIn, Bool.and_eq_true, decide_eq_true_eq] at hchain
      obtain ⟨hmem, hrest⟩ := hchain
      have hstep : findChildNode st node.id c = Res.ok ⟨i, node.id, c⟩ :=
        findChildNode_eq st node.id i c hU hmem
      cases cs with
      | nil =>
        cases is with
        | cons i2 is2 => simp [chainIn] at hrest
        | nil =>
          have hc : c = cL := by simpa using hlastC
          have hi : i = iL := by simpa using hlastI
          subst hc
          subst hi
          refine ⟨node.id, ?_, hmem⟩
          simpa [walkStep] using hstep
      | cons c2 cs2 =>
        cases is with
        | nil => simp [chainIn] at hrest
        | cons i2 is2 =>
          have hlastC' : (c2 :: cs2).getLast? = some cL := by
            rw [List.getLast?_cons_cons] at hlastC
            exact hlastC
          have hlastI' : (i2 :: is2).getLast? = some iL := by
            rw [List.getLast?_cons_cons] at hlastI
            exact hlastI
          obtain ⟨p', hfold, hmem'⟩ :=
            ih (i2 :: is2) ⟨i, node.id, c⟩ cL iL hrest hlastC' hlastI'
          refine ⟨p', ?_, hmem'⟩
          rw [List.foldl_cons]
          have hw : walkStep st (Res.ok node) c = Res.ok ⟨i, node.id, c⟩ := by
            simpa [walkStep] using hstep
          rw [hw]
          exact hfold

/-- C1: in every store reachable by committed `add_entry` calls, for
every created path chain (each component added with its allocated id,
its parent's id and the component name), `find_entry` on the path returns
an Entry whose node name is the final component and whose node id is the
id allocated for that component. -/
theorem c1_add_entry_find_entry_roundtrip (st : Store) (comps : List String)
    (ids : List Nat) (cL : String) (iL : Nat) (hr : Reachable st)
    (hchain : chainIn st rootId comps ids = true)
    (hlastC : comps.getLast? = some cL) (hlastI : ids.getLast? = some iL) :
    ∃ e, findEntry st comps = Res.ok e ∧ e.node.name = cL ∧ e.node.id = iL := by
  obtain ⟨hU, hC⟩ := reachable_inv st hr
  obtain ⟨p', hfold, hmem⟩ :=
    walk_chain st hU comps ids Node.root cL iL hchain hlastC hlastI
  obtain ⟨oc₀, hoc₀⟩ := hC p' ⟨iL, cL⟩ hmem
  refine ⟨⟨⟨iL, p', cL⟩, oc₀⟩, ?_, rfl, rfl⟩
  unfold findEntry
  rw [show findNode st comps = Res.ok ⟨iL, p', cL⟩ from hfold]
  simp [show tableGet st.entries iL = Res.ok (ObjectClass.toBytes oc₀) from hoc₀,
    fromBytes_toBytes]

/-- C1 witness: the round trip applied to the two-level store and the
path a/b with allocated ids 1 and 2. -/
theorem c1_roundtrip_instance :
    ∃ e, findEntry twoLevelStore ["a", "b"] = Res.ok e ∧
      e.node.name = "b" ∧ e.node.id = 2 :=
  c1_add_entry_find_entry_roundtrip twoLevelStore ["a", "b"] [1, 2] "b" 2
    (Reachable.step _ 2 1 "b" ObjectClass.Ou
      (Reachable.step emptyStore 1 rootId "a" ObjectClass.Domain Reachable.empty))
    (by decide) (by decide) (by decide)

/-- The last-ordered key over an appended pair is the maximum of the old
last key and the new pair's key. -/
theorem lastNodeKey_append (l : List (Nat × NodeVal)) (x : Nat × NodeVal) :
    lastNodeKey (l ++ [x]) = max (lastNodeKey l) x.1 := by
  unfold lastNodeKey
  rw [List.foldl_append]
  rfl

/-- Ids assigned through `next_available_id` are strictly sorted in
assignment order, each owns an entries row, and each is bounded by the
next id the current state would allocate. -/
theorem allocReachable_spec (st : Store) (ids : List Nat)
    (h : AllocReachable st ids) :
    List.Sorted (· < ·) ids ∧
      ∀ j ∈ ids, (∃ b, tableGet st.entries j = Res.ok b) ∧
        j ≤ nextAvailableId st := by
  induction h with
  | empty => exact ⟨List.sorted_nil, by simp⟩
  | stepOk st pid name oc ids e hr hok ih =>
    obtain ⟨hsort, hprops⟩ := ih
    obtain ⟨hid, hpar, hent, hst⟩ :=
      addEntry_ok_spec st (nextAvailableId st) pid name oc e hok
    have hlt : ∀ j ∈ ids, j < nextAvailableId st := by
      intro j hj
      obtain ⟨⟨b, hb⟩, hle⟩ := hprops j hj
      rcases lt_or_eq_of_le hle with h' | h'
      · exact h'
      · rw [h'] at hb
        rw [hid] at hb
        cases hb
    constructor
    · refine List.pairwise_append.2 ⟨hsort, List.pairwise_singleton _ _, ?_⟩
      intro a ha b hb
      have hbe : b = nextAvailableId st := by simpa using hb
      rw [hbe]
      exact hlt a ha
    · intro j hj
      rw [hst]
      have hnext : nextAvailableId st ≤ nextAvailableId
          { st with
              nodes := dupPut st.nodes pid ⟨nextAvailableId st, name⟩,
              entries := tablePut st.entries (nextAvailableId st) (ObjectClass.toBytes oc) } := by
        show lastNodeKey st.nodes + 1 ≤
          lastNodeKey (dupPut st.nodes pid ⟨nextAvailableId st, name⟩) + 1
        rw [show dupPut st.nodes pid (NodeVal.mk (nextAvailableId st) name) =
          st.nodes ++ [(pid, NodeVal.mk (nextAvailableId st) name)] from rfl]
        rw [lastNodeKey_append]
        exact Nat.succ_le_succ (le_max_left _ _)
      rcases List.mem_append.1 hj with hj | hj
      · obtain ⟨⟨b, hb⟩, hle⟩ := hprops j hj
        have hjne : j ≠ nextAvailableId st := by
          intro he
          rw [he] at hb
          rw [hid] at hb
          cases hb
        refine ⟨⟨b, ?_⟩, le_trans hle hnext⟩
        show tableGet (tablePut st.entries (nextAvailableId st) (ObjectClass.toBytes oc)) j =
          Res.ok b
        rw [tableGet_tablePut_ne _ _ _ _ hjne]
        exact hb
      · have hje : j = nextAvailableId st := by simpa using hj
        subst hje
        refine ⟨⟨ObjectClass.toBytes oc, ?_⟩, hnext⟩
        exact tableGet_tablePut_self _ _ _
  | stepErr st pid name oc ids er hr herr ih =>
    rw [addEntry_snd_of_err st (nextAvailableId st) pid name oc er herr]
    exact ih

/-- C5 (amended): starting from an empty store, across every sequence of
`add_entry` calls whose ids are obtained from `next_available_id`, the
successfully assigned ids are strictly increasing in assignment order and
never reused or reassigned.  (As stated, the claim also asserts that
every id `next_available_id` returns is strictly greater than all
previously assigned ids; the counterexample refutes that part, because
the index records parent keys, not assigned ids.) -/
theorem c5_assigned_ids_strictly_increasing (st : Store) (ids : List Nat)
    (h : AllocReachable st ids) : List.Sorted (· < ·) ids :=
  (allocReachable_spec st ids h).1

/-- C5 witness: an allocation run assigning ids 1 and then 101. -/
theorem c5_assigned_ids_instance : List.Sorted (· < ·) ([1, 101] : List Nat) := by
  have h1 := AllocReachable.stepOk emptyStore 100 "a" ObjectClass.Domain []
    ⟨⟨1, 100, "a"⟩, ObjectClass.Domain⟩ AllocReachable.empty (by decide)
  have h2 := AllocReachable.stepOk _ rootId "b" ObjectClass.Domain _
    ⟨⟨101, rootId, "b"⟩, ObjectClass.Domain⟩ h1 (by decide)
  have h3 : (([] : List Nat) ++ [nextAvailableId emptyStore]) ++
      [nextAvailableId (addEntry emptyStore (nextAvailableId emptyStore) 100 "a"
        ObjectClass.Domain).2] = [1, 101] := by decide
  rw [h3] at h2
  exact c5_assigned_ids_strictly_increasing _ _ h2

/-- C5 counterexample: after the honestly allocated assignment of id 1
under the root, `next_available_id` returns 1 again — an allocated id
that is not strictly greater than the previously assigned id 1 — and the
subsequent `add_entry` call using it fails. -/
theorem c5_allocation_counterexample :
    AllocReachable allocStuckStore [1] ∧
      nextAvailableId allocStuckStore = 1 ∧
      ¬ (1 < nextAvailableId allocStuckStore) ∧
      (addEntry allocStuckStore (nextAvailableId allocStuckStore) rootId "b"
        ObjectClass.Domain).1 = Res.err Error.EntryAlreadyExists := by
  refine ⟨?_, by decide, by decide, by decide⟩
  have h1 := AllocReachable.stepOk emptyStore rootId "a" ObjectClass.Domain []
    ⟨⟨1, rootId, "a"⟩, ObjectClass.Domain⟩ AllocReachable.empty (by decide)
  have h2 : ([] : List Nat) ++ [nextAvailableId emptyStore] = [1] := by decide
  rw [h2] at h1
  exact h1

/-- C6 (amended): in every store reachable by `add_entry` sequences in
which each call's parent id is the root id or the id of an
already-present node, every stored node's parent id references an
existing node.  (As stated over arbitrary `add_entry` sequences the claim
fails: `add_entry` performs no parent-existence check, see the
counterexample.) -/
theorem c6_parent_existence_good_sequences (st : Store) (h : ReachableGood st) :
    ParentsExist st := by
  induction h with
  | empty =>
    intro k v hv
    simp [emptyStore] at hv
  | step st id pid name oc hr hgood ih =>
    cases hres : (addEntry st id pid name oc).1 with
    | err e =>
      rw [addEntry_snd_of_err st id pid name oc e hres]
      exact ih
    | ok e =>
      obtain ⟨-, -, -, hst⟩ := addEntry_ok_spec st id pid name oc e hres
      rw [hst]
      intro k v hv
      have hv' : (k, v) ∈ st.nodes ∨ (k = pid ∧ v = NodeVal.mk id name) := by
        simpa [dupPut, Prod.mk.injEq] using hv
      have hback : ∀ k' v', (k', v') ∈ st.nodes →
          (k', v') ∈ dupPut st.nodes pid (NodeVal.mk id name) := by
        intro k' v' hm
        simp only [dupPut, List.mem_append]
        exact Or.inl hm
      rcases hv' with hv' | ⟨hk, -⟩
      · rcases ih k v hv' with hroot | ⟨k', v', hm, hid'⟩
        · exact Or.inl hroot
        · exact Or.inr ⟨k', v', hback k' v' hm, hid'⟩
      · subst hk
        rcases hgood with hroot | ⟨k', v', hm, hid'⟩
        · exact Or.inl hroot
        · exact Or.inr ⟨k', v', hback k' v' hm, hid'⟩

/-- C6 witness: the invariant applied to the two-level store, whose two
calls both used an existing parent. -/
theorem c6_parent_existence_instance : ParentsExist twoLevelStore :=
  c6_parent_existence_good_sequences twoLevelStore
    (ReachableGood.step _ 2 1 "b" ObjectClass.Ou
      (ReachableGood.step emptyStore 1 rootId "a" ObjectClass.Domain
        ReachableGood.empty (Or.inl rfl))
      (Or.inr ⟨rootId, ⟨1, "a"⟩, by decide, rfl⟩))

/-- C6 counterexample: from the empty store, one `add_entry` call with
the dangling parent id 5 succeeds, yielding a reachable store holding a
node whose parent id is neither the root id nor any stored node's id. -/
theorem c6_dangling_parent_counterexample :
    Reachable danglingStore ∧ ¬ ParentsExist danglingStore := by
  constructor
  · exact Reachable.step emptyStore 1 5 "a" ObjectClass.Domain Reachable.empty
  · intro hpe
    have hmem : ((5 : Nat), NodeVal.mk 1 "a") ∈ danglingStore.nodes := by decide
    rcases hpe 5 ⟨1, "a"⟩ hmem with h5 | ⟨k', v', hm, hid'⟩
    · exact absurd h5 (by decide)
    · have hnodes : danglingStore.nodes = [(5, NodeVal.mk 1 "a")] := by decide
      rw [hnodes] at hm
      simp at hm
      rw [hm.2] at hid'
      simp at hid'

end Ithos
